import Mathlib

/-!
# Verification of the bandit-policy core

A shallow embedding of the bandit repository's core: the four policy
implementations (`RandomChoice`, `EpsilonGreedy`, `ThompsonSampling`,
`LinUCB`) and the `SimulationEngine` loop, together with theorems
settling the specification claims about them.

Modelling conventions:
* Python floats are modelled as `ℚ` where the code only adds, divides and
  compares (epsilon-greedy statistics, Beta posterior parameters, engine
  rewards), and as `ℝ` where square roots and matrix inversion occur
  (LinUCB scores).
* Python dicts keyed by arm id are association lists `List (String × α)`;
  `defaultdict` / lazy-initialisation reads are lookups with an explicit
  default, following the "lookup with default" design note.  (A
  `defaultdict` read also materialises the default entry in the dict;
  that is invisible to every subsequent lookup, so reads are modelled as
  pure lookups.)
* Each policy's private RNG is an oracle: the draws a call consumes are
  explicit arguments (`u` for `random()`, `ridx` for `integers(n)`,
  `draws : ℕ → ℚ` for the stream of `beta(...)` samples).  The RNG
  contract gives `0 ≤ u < 1` and `ridx < n`.
* Fallible code (`IndexError` on an empty candidate list, `KeyError` on a
  missing dict entry) returns `Option`, with `none` as the raised error.
-/

/-! ## Association-list helpers (Python `dict` operations) -/

/-- `d[k]` as an `Option`: the first binding of `k`, if any. -/
def lookupKV {α : Type _} (k : String) : List (String × α) → Option α
  | [] => none
  | (k', v) :: t => if k = k' then some v else lookupKV k t

/-- `d[k] = v`: replace the first binding of `k`, or append one. -/
def setKV {α : Type _} (k : String) (v : α) : List (String × α) → List (String × α)
  | [] => [(k, v)]
  | (k', w) :: t => if k = k' then (k', v) :: t else (k', w) :: setKV k v t

/-- `if k not in d: d[k] = v` — insert only when the key is absent. -/
def insKV {α : Type _} (k : String) (v : α) (l : List (String × α)) : List (String × α) :=
  match lookupKV k l with
  | some _ => l
  | none => (k, v) :: l

theorem lookupKV_setKV_self {α : Type _} (k : String) (v : α) :
    ∀ l : List (String × α), lookupKV k (setKV k v l) = some v := by
  intro l
  induction l with
  | nil => simp [setKV, lookupKV]
  | cons p t ih =>
    obtain ⟨k', w⟩ := p
    by_cases h : k = k' <;> simp [setKV, lookupKV, h, ih]

theorem lookupKV_setKV_ne {α : Type _} {k k' : String} (h : k' ≠ k) (v : α) :
    ∀ l : List (String × α), lookupKV k' (setKV k v l) = lookupKV k' l := by
  intro l
  induction l with
  | nil => simp [setKV, lookupKV, h]
  | cons p t ih =>
    obtain ⟨k'', w⟩ := p
    by_cases h2 : k = k''
    · subst h2
      simp [setKV, lookupKV, h]
    · by_cases h3 : k' = k'' <;> simp [setKV, lookupKV, h2, h3, ih]

/-- Inserting the default value for a missing key does not change any
lookup-with-default observation. -/
theorem lookupKV_insKV_getD {α : Type _} (k k' : String) (dflt : α)
    (l : List (String × α)) :
    (lookupKV k' (insKV k dflt l)).getD dflt = (lookupKV k' l).getD dflt := by
  unfold insKV
  cases hl : lookupKV k l with
  | some v => rfl
  | none =>
    by_cases h : k' = k
    · subst h
      simp [lookupKV, hl]
    · simp [lookupKV, h]

theorem lookupKV_insKV_isSome {α : Type _} (k : String) (v : α)
    (l : List (String × α)) : (lookupKV k (insKV k v l)).isSome := by
  unfold insKV
  cases hl : lookupKV k l with
  | some w => simp [hl]
  | none => simp [lookupKV]

/-- A successful lookup comes from a binding in the list. -/
theorem lookupKV_mem {α : Type _} {k : String} {v : α} :
    ∀ {l : List (String × α)}, lookupKV k l = some v → (k, v) ∈ l := by
  intro l
  induction l with
  | nil => intro h; simp [lookupKV] at h
  | cons p t ih =>
    obtain ⟨k', w⟩ := p
    intro h
    by_cases hk : k = k'
    · subst hk
      simp [lookupKV] at h
      simp [h]
    · simp [lookupKV, hk] at h
      exact List.mem_cons_of_mem _ (ih h)

/-! ## The shared "running best with strict improvement" fold

Every policy's selection loop has the shape: keep a current best
`(item, score)` pair and replace it only on a strictly larger score, so the
first occurrence of the maximal score wins. -/

/-- One comparison step of the selection loops. -/
def bestStep {β K : Type _} [LinearOrder K] (b p : β × K) : β × K :=
  if p.2 > b.2 then p else b

/-- The running-best fold over an explicit list of scored items. -/
def foldBest {β K : Type _} [LinearOrder K] (p0 : β × K) (l : List (β × K)) : β × K :=
  l.foldl bestStep p0

/-- `foldBest` returns the first entry of the list (initial element
included) attaining the maximal score: it is some entry, every score is
`≤` its score, and every strictly earlier entry scores strictly less. -/
theorem foldBest_spec {β K : Type _} [LinearOrder K] :
    ∀ (l : List (β × K)) (p0 : β × K),
    ∃ i, ∃ hi : i < (p0 :: l).length,
      foldBest p0 l = (p0 :: l).get ⟨i, hi⟩ ∧
      (∀ j (hj : j < (p0 :: l).length),
        ((p0 :: l).get ⟨j, hj⟩).2 ≤ ((p0 :: l).get ⟨i, hi⟩).2) ∧
      (∀ j (hj : j < (p0 :: l).length), j < i →
        ((p0 :: l).get ⟨j, hj⟩).2 < ((p0 :: l).get ⟨i, hi⟩).2) := by
  intro l
  induction l with
  | nil =>
    intro p0
    refine ⟨0, by simp, rfl, ?_, ?_⟩
    · intro j hj
      have : j = 0 := by simpa using hj
      subst this
      exact le_refl _
    · intro j hj hji
      omega
  | cons q t ih =>
    intro p0
    by_cases hq : q.2 > p0.2
    · -- the head of the tail strictly improves on the initial element
      obtain ⟨i, hi, heq, hmax, hstrict⟩ := ih q
      refine ⟨i + 1, by simpa using hi, ?_, ?_, ?_⟩
      · show foldBest (bestStep p0 q) t = _
        rw [show bestStep p0 q = q from if_pos hq]
        exact heq
      · intro j hj
        match j with
        | 0 =>
          exact le_trans (le_of_lt hq) (hmax 0 (by simp))
        | j + 1 =>
          exact hmax j (by simpa using hj)
      · intro j hj hji
        match j with
        | 0 =>
          exact lt_of_lt_of_le hq (hmax 0 (by simp))
        | j + 1 =>
          exact hstrict j (by simpa using hj) (by omega)
    · -- the head of the tail does not improve: the fold keeps `p0`
      obtain ⟨i, hi, heq, hmax, hstrict⟩ := ih p0
      have hfold : foldBest p0 (q :: t) = foldBest p0 t := by
        show foldBest (bestStep p0 q) t = foldBest p0 t
        rw [show bestStep p0 q = p0 from if_neg hq]
      match i with
      | 0 =>
        refine ⟨0, by simp, by simpa [hfold] using heq, ?_, ?_⟩
        · intro j hj
          match j with
          | 0 => exact le_refl _
          | 1 => simpa using le_of_not_lt hq
          | j + 2 =>
            have := hmax (j + 1) (by simpa using hj)
            simpa using this
        · intro j hj hji
          omega
      | i + 1 =>
        refine ⟨i + 2, by simpa using hi, by simpa [hfold] using heq, ?_, ?_⟩
        · intro j hj
          match j with
          | 0 =>
            have := hmax 0 (by simp)
            simpa using this
          | 1 =>
            have h0 := hmax 0 (by simp)
            exact le_trans (le_of_not_lt hq) (by simpa using h0)
          | j + 2 =>
            have := hmax (j + 1) (by simpa using hj)
            simpa using this
        · intro j hj hji
          match j with
          | 0 =>
            have := hstrict 0 (by simp) (by omega)
            simpa using this
          | 1 =>
            have h0 := hstrict 0 (by simp) (by omega)
            exact lt_of_le_of_lt (le_of_not_lt hq) (by simpa using h0)
          | j + 2 =>
            have := hstrict (j + 1) (by simpa using hj) (by omega)
            simpa using this

/-- The result of `foldBest` is the initial pair or a member of the list. -/
theorem foldBest_mem {β K : Type _} [LinearOrder K] (l : List (β × K)) (p0 : β × K) :
    foldBest p0 l = p0 ∨ foldBest p0 l ∈ l := by
  obtain ⟨i, hi, heq, -, -⟩ := foldBest_spec l p0
  have : (p0 :: l).get ⟨i, hi⟩ ∈ p0 :: l := List.get_mem _ _ _
  rw [← heq] at this
  rcases List.mem_cons.mp this with h | h
  · exact Or.inl h
  · exact Or.inr h

/-- `foldBest` over a scored copy of a non-empty list `x :: xs`:
the result is `sc` of the first element of the list attaining the maximal
score. -/
theorem foldBest_map_spec {α β K : Type _} [LinearOrder K] (sc : α → β × K)
    (x : α) (xs : List α) :
    ∃ i, ∃ hi : i < (x :: xs).length,
      foldBest (sc x) (xs.map sc) = sc ((x :: xs).get ⟨i, hi⟩) ∧
      (∀ j (hj : j < (x :: xs).length),
        (sc ((x :: xs).get ⟨j, hj⟩)).2 ≤ (sc ((x :: xs).get ⟨i, hi⟩)).2) ∧
      (∀ j (hj : j < (x :: xs).length), j < i →
        (sc ((x :: xs).get ⟨j, hj⟩)).2 < (sc ((x :: xs).get ⟨i, hi⟩)).2) := by
  obtain ⟨i, hi, heq, hmax, hstrict⟩ := foldBest_spec (xs.map sc) (sc x)
  have hget : ∀ j (hj : j < (sc x :: xs.map sc).length),
      (sc x :: xs.map sc).get ⟨j, hj⟩ =
        sc ((x :: xs).get ⟨j, by simpa using hj⟩) := by
    intro j hj
    show (List.map sc (x :: xs)).get ⟨j, hj⟩ = sc ((x :: xs).get ⟨j, by simpa using hj⟩)
    exact List.get_map sc
  refine ⟨i, by simpa using hi, ?_, ?_, ?_⟩
  · rw [heq, hget i hi]
  · intro j hj
    have := hmax j (by simpa using hj)
    rwa [hget, hget] at this
  · intro j hj hji
    have := hstrict j (by simpa using hj) hji
    rwa [hget, hget] at this

/-! ## RandomChoice (src/bandit/algorithms/random_choice.py)

`RandomChoice` holds nothing but its RNG; its one draw
`idx = rng.integers(len(arm_ids))` is the explicit argument `ridx`
(the RNG contract gives `ridx < len(arm_ids)`; `integers(0)` raises,
modelled by `none`). -/

namespace RandomChoice

/-- `RandomChoice.select_arm`: `arm_ids[rng.integers(len(arm_ids))]`. -/
def select_arm (arm_ids : List String) (ridx : ℕ) : Option String :=
  if h : ridx < arm_ids.length then some (arm_ids.get ⟨ridx, h⟩) else none

end RandomChoice

/-! ## EpsilonGreedy (src/bandit/algorithms/epsilon_greedy.py) -/

/-- The fields of an `EpsilonGreedy` instance other than its RNG:
`_epsilon`, `_total_reward` (defaultdict, default `0.0`) and
`_pull_count` (defaultdict, default `0`). -/
structure EpsilonGreedyState where
  epsilon : ℚ
  total_reward : List (String × ℚ)
  pull_count : List (String × ℕ)

namespace EpsilonGreedy

/-- `EpsilonGreedy._avg_reward`: the running mean `total/count`, and `0.0`
for an arm whose pull count is `0`. -/
def avg_reward (st : EpsilonGreedyState) (arm_id : String) : ℚ :=
  let count := (lookupKV arm_id st.pull_count).getD 0
  if count = 0 then 0 else (lookupKV arm_id st.total_reward).getD 0 / count

/-- The exploitation scan of `select_arm`: start from `arm_ids[0]` and
replace the running best only on a strictly higher average reward
(`arm_ids[0]` on an empty list raises, modelled by `none`). -/
def exploit (st : EpsilonGreedyState) : List String → Option String
  | [] => none
  | a0 :: rest =>
      some (rest.foldl
        (fun best arm =>
          let avg := avg_reward st arm
          if avg > best.2 then (arm, avg) else best)
        (a0, avg_reward st a0)).1

/-- `EpsilonGreedy.select_arm`.  `u` is the draw of `rng.random()`
(consumed on every call) and `ridx` the draw of
`rng.integers(len(arm_ids))` (consumed only when exploring).  The state
is returned alongside the arm: the method performs no assignment. -/
def select_arm (st : EpsilonGreedyState) (arm_ids : List String)
    (u : ℚ) (ridx : ℕ) : Option (EpsilonGreedyState × String) :=
  if u < st.epsilon then
    if h : ridx < arm_ids.length then some (st, arm_ids.get ⟨ridx, h⟩) else none
  else
    (exploit st arm_ids).map (fun a => (st, a))

/-- `EpsilonGreedy.update`:
`total_reward[arm_id] += reward; pull_count[arm_id] += 1`. -/
def update (st : EpsilonGreedyState) (arm_id : String) (reward : ℚ) :
    EpsilonGreedyState :=
  { st with
    total_reward :=
      setKV arm_id ((lookupKV arm_id st.total_reward).getD 0 + reward)
        st.total_reward,
    pull_count :=
      setKV arm_id ((lookupKV arm_id st.pull_count).getD 0 + 1) st.pull_count }

theorem exploit_eq_foldBest (st : EpsilonGreedyState) (a0 : String)
    (rest : List String) :
    exploit st (a0 :: rest) =
      some ((foldBest (a0, avg_reward st a0)
        (rest.map (fun a => (a, avg_reward st a)))).1) := by
  unfold exploit foldBest
  rw [List.foldl_map]
  rfl

end EpsilonGreedy

/-! ## ThompsonSampling (src/bandit/algorithms/thompson_sampling.py) -/

/-- The fields of a `ThompsonSampling` instance other than its RNG:
the prior parameters and the two defaultdicts `_alpha`, `_beta`
(defaulting to the priors). -/
structure ThompsonSamplingState where
  prior_alpha : ℚ
  prior_beta : ℚ
  alpha : List (String × ℚ)
  beta : List (String × ℚ)

namespace ThompsonSampling

/-- The Beta posterior's alpha parameter for an arm (prior if unseen). -/
def alphaOf (st : ThompsonSamplingState) (arm_id : String) : ℚ :=
  (lookupKV arm_id st.alpha).getD st.prior_alpha

/-- The Beta posterior's beta parameter for an arm (prior if unseen). -/
def betaOf (st : ThompsonSamplingState) (arm_id : String) : ℚ :=
  (lookupKV arm_id st.beta).getD st.prior_beta

/-- The selection loop over `arm_ids[1:]`: one fresh posterior sample per
arm, strict improvement keeps the earliest maximum.  `draws i` is the
value returned by the `i`-th `rng.beta(...)` call of this invocation
(a sample from `Beta(alphaOf arm_i, betaOf arm_i)`; the sampled value is
supplied by the RNG oracle). -/
def sample_loop (draws : ℕ → ℚ) : List String → ℕ → String × ℚ → String × ℚ
  | [], _, best => best
  | arm :: rest, i, best =>
      let sample := draws i
      sample_loop draws rest (i + 1)
        (if sample > best.2 then (arm, sample) else best)

/-- `ThompsonSampling.select_arm`: sample every candidate's posterior and
return the arm with the highest sample (`arm_ids[0]` on an empty list
raises, modelled by `none`).  No assignment is performed. -/
def select_arm (st : ThompsonSamplingState) (arm_ids : List String)
    (draws : ℕ → ℚ) : Option (ThompsonSamplingState × String) :=
  match arm_ids with
  | [] => none
  | a0 :: rest => some (st, (sample_loop draws rest 1 (a0, draws 0)).1)

/-- `ThompsonSampling.update`:
`alpha[arm_id] += reward; beta[arm_id] += 1.0 - reward`. -/
def update (st : ThompsonSamplingState) (arm_id : String) (reward : ℚ) :
    ThompsonSamplingState :=
  { st with
    alpha := setKV arm_id (alphaOf st arm_id + reward) st.alpha,
    beta := setKV arm_id (betaOf st arm_id + (1 - reward)) st.beta }

/-- The selection loop only ever returns the running best or a member of
the remaining candidate list. -/
theorem sample_loop_mem (draws : ℕ → ℚ) :
    ∀ (l : List String) (i : ℕ) (best : String × ℚ),
      (sample_loop draws l i best).1 = best.1 ∨
        (sample_loop draws l i best).1 ∈ l := by
  intro l
  induction l with
  | nil => intro i best; exact Or.inl rfl
  | cons arm rest ih =>
    intro i best
    by_cases hcmp : draws i > best.2
    · have hl : sample_loop draws (arm :: rest) i best =
          sample_loop draws rest (i + 1) (arm, draws i) := by
        rw [sample_loop]
        simp [hcmp]
      rcases ih (i + 1) (arm, draws i) with h | h
      · rw [hl]
        right
        rw [h]
        exact List.mem_cons_self _ _
      · rw [hl]
        exact Or.inr (List.mem_cons_of_mem _ h)
    · have hl : sample_loop draws (arm :: rest) i best =
          sample_loop draws rest (i + 1) best := by
        rw [sample_loop]
        simp [hcmp]
      rcases ih (i + 1) best with h | h
      · rw [hl]
        exact Or.inl h
      · rw [hl]
        exact Or.inr (List.mem_cons_of_mem _ h)

end ThompsonSampling

/-! ## LinUCB (src/bandit/algorithms/linucb.py)

Feature vectors (`np.ndarray` of shape `(d,)`) are lists of reals and the
per-arm design matrices (shape `(d, d)`) are row lists.  `np.linalg.solve`
is modelled as multiplication by the Mathlib matrix inverse
(the source's `A` is `I` plus a sum of outer products, hence positive
definite and invertible; out-of-shape accesses — a contract violation in
the spec, a numpy shape error at runtime — read as `0`). -/

/-- Feature vector. -/
abbrev Vec := List ℝ

/-- Row-list matrix. -/
abbrev Mat := List (List ℝ)

/-- Entry `m[i][j]` of a row-list matrix. -/
def matEntry (m : Mat) (i j : ℕ) : ℝ := (((m.get? i).getD []).get? j).getD 0

/-- Entry `x[i]` of a vector. -/
def vecEntry (x : Vec) (i : ℕ) : ℝ := (x.get? i).getD 0

/-- `np.eye(d)`. -/
def eye (d : ℕ) : Mat :=
  (List.range d).map (fun i => (List.range d).map (fun j => if i = j then (1 : ℝ) else 0))

/-- `np.zeros(d)`. -/
def zeros (d : ℕ) : Vec := (List.range d).map (fun _ => (0 : ℝ))

/-- `np.outer(x, y)`. -/
def outer (x y : Vec) : Mat := x.map (fun xi => y.map (fun yj => xi * yj))

/-- Elementwise matrix sum (the operands share the shape in contract). -/
def matAdd (a b : Mat) : Mat := List.zipWith (fun r s => List.zipWith (· + ·) r s) a b

/-- Elementwise vector sum. -/
def vecAdd (x y : Vec) : Vec := List.zipWith (· + ·) x y

/-- `reward * x`. -/
def smulVec (r : ℝ) (x : Vec) : Vec := x.map (fun xi => r * xi)

/-- A row-list matrix as a Mathlib matrix of fixed dimension `d`. -/
def toMatrix (d : ℕ) (m : Mat) : Matrix (Fin d) (Fin d) ℝ :=
  Matrix.of fun i j => matEntry m i.1 j.1

/-- A vector as a function on `Fin d`. -/
def toVecF (d : ℕ) (x : Vec) : Fin d → ℝ := fun i => vecEntry x i.1

/-- `np.linalg.solve(a, v)`, i.e. `a⁻¹ v`. -/
noncomputable def npSolve (d : ℕ) (a : Mat) (v : Vec) : Fin d → ℝ :=
  Matrix.mulVec (toMatrix d a)⁻¹ (toVecF d v)

/-- The UCB score of one arm:
`theta @ x + alpha * sqrt(x @ solve(A, x))` where `theta = solve(A, b)`. -/
noncomputable def ucbScore (d : ℕ) (alpha : ℝ) (a : Mat) (b : Vec) (x : Vec) : ℝ :=
  Matrix.dotProduct (npSolve d a b) (toVecF d x)
    + alpha * Real.sqrt (Matrix.dotProduct (toVecF d x) (npSolve d a x))

/-- The fields of a `LinUCB` instance other than its RNG: `_alpha`, the
lazily fixed dimensionality `_d`, and the per-arm dicts `_A`, `_b`. -/
structure LinUCBState where
  alpha : ℝ
  d : Option ℕ
  A : List (String × Mat)
  b : List (String × Vec)

namespace LinUCB

/-- `_A[arm]` as observed through lazy initialisation: `eye dim` if unseen. -/
def matOf (st : LinUCBState) (dim : ℕ) (arm_id : String) : Mat :=
  (lookupKV arm_id st.A).getD (eye dim)

/-- `_b[arm]` as observed through lazy initialisation: `zeros dim` if unseen. -/
def vecOf (st : LinUCBState) (dim : ℕ) (arm_id : String) : Vec :=
  (lookupKV arm_id st.b).getD (zeros dim)

/-- `_ensure_dim(x)` followed by `_init_arm(arm)` when the arm is unseen. -/
def initArm (st : LinUCBState) (dim : ℕ) (arm_id : String) : LinUCBState :=
  { st with
    d := some dim,
    A := insKV arm_id (eye dim) st.A,
    b := insKV arm_id (zeros dim) st.b }

/-- The state after one iteration of the scoring loop on `arm` with
feature vector `x` (`_ensure_dim` fixes `d` on first contact). -/
def stepState (st : LinUCBState) (arm_id : String) (x : Vec) : LinUCBState :=
  initArm st (st.d.getD x.length) arm_id

/-- The UCB score the loop computes for `arm` with feature vector `x`. -/
noncomputable def stepScore (st : LinUCBState) (arm_id : String) (x : Vec) : ℝ :=
  let dim := st.d.getD x.length
  let st' := initArm st dim arm_id
  ucbScore dim st'.alpha (matOf st' dim arm_id) (vecOf st' dim arm_id) x

/-- `best_ucb` starts at `-np.inf` (`none`); a strictly greater score
replaces the running best. -/
noncomputable def betterOpt (best : Option (String × ℝ)) (p : String × ℝ) :
    Option (String × ℝ) :=
  match best with
  | none => some p
  | some q => if p.2 > q.2 then some p else some q

/-- The scoring loop of `select_arm`: look up each candidate's feature
vector (`KeyError`, i.e. `none`, when absent), lazily initialise, score,
and keep the best.  The final best is returned with the threaded state
(`none` when the candidate list was empty: `best_ucb` never rose above
`-inf` and `arm_ids[0]` would have raised). -/
noncomputable def select_loop (ctx : List (String × Vec)) :
    List String → LinUCBState → Option (String × ℝ) → Option (LinUCBState × String)
  | [], st, best =>
      match best with
      | some p => some (st, p.1)
      | none => none
  | arm :: rest, st, best =>
      match lookupKV arm ctx with
      | none => none
      | some x =>
          select_loop ctx rest (stepState st arm x)
            (betterOpt best (arm, stepScore st arm x))

/-- `LinUCB.select_arm`: uniform random fallback without context,
UCB maximisation with it.  `ridx` is the draw of
`rng.integers(len(arm_ids))`, consumed only in the fallback. -/
noncomputable def select_arm (st : LinUCBState) (arm_ids : List String)
    (context : Option (List (String × Vec))) (ridx : ℕ) :
    Option (LinUCBState × String) :=
  match context with
  | none =>
      if h : ridx < arm_ids.length then some (st, arm_ids.get ⟨ridx, h⟩) else none
  | some ctx => select_loop ctx arm_ids st none

/-- `LinUCB.update`: no-op without context; otherwise lazily initialise
and do `A[arm] += outer(x, x); b[arm] += reward * x`. -/
def update (st : LinUCBState) (arm_id : String) (reward : ℝ)
    (context : Option Vec) : LinUCBState :=
  match context with
  | none => st
  | some x =>
      let dim := st.d.getD x.length
      let st' := initArm st dim arm_id
      { st' with
        A := setKV arm_id (matAdd (matOf st' dim arm_id) (outer x x)) st'.A,
        b := setKV arm_id (vecAdd (vecOf st' dim arm_id) (smulVec reward x)) st'.b }

/-- The per-arm score of the claim's formula, read directly off a state:
`thetaᵗx + alpha * sqrt(xᵗ A⁻¹ x)` with `theta = A⁻¹ b`, where an unseen
arm has `(A, b) = (eye dim, zeros dim)`. -/
noncomputable def specScore (st : LinUCBState) (dim : ℕ)
    (ctx : List (String × Vec)) (arm_id : String) : ℝ :=
  ucbScore dim st.alpha (matOf st dim arm_id) (vecOf st dim arm_id)
    ((lookupKV arm_id ctx).getD [])

/-- Equality of everything `select_arm` and `update` can observe about a
state whose dimensionality is `dim`. -/
def obsEq (dim : ℕ) (st st' : LinUCBState) : Prop :=
  st'.alpha = st.alpha ∧ st'.d = st.d ∧
  (∀ a, matOf st' dim a = matOf st dim a) ∧
  (∀ a, vecOf st' dim a = vecOf st dim a)

end LinUCB

namespace LinUCB

theorem obsEq_refl (dim : ℕ) (st : LinUCBState) : obsEq dim st st :=
  ⟨rfl, rfl, fun _ => rfl, fun _ => rfl⟩

theorem obsEq_trans {dim : ℕ} {s1 s2 s3 : LinUCBState}
    (h12 : obsEq dim s1 s2) (h23 : obsEq dim s2 s3) : obsEq dim s1 s3 :=
  ⟨h23.1.trans h12.1, h23.2.1.trans h12.2.1,
    fun a => (h23.2.2.1 a).trans (h12.2.2.1 a),
    fun a => (h23.2.2.2 a).trans (h12.2.2.2 a)⟩

/-- Lazy initialisation only materialises default entries: no observation
of a `dim`-dimensional state changes. -/
theorem initArm_obsEq {dim : ℕ} {st : LinUCBState} (hd : st.d = some dim)
    (arm_id : String) : obsEq dim st (initArm st dim arm_id) := by
  refine ⟨rfl, by simp [initArm, hd], fun a => ?_, fun a => ?_⟩
  · exact lookupKV_insKV_getD arm_id a (eye dim) st.A
  · exact lookupKV_insKV_getD arm_id a (zeros dim) st.b

theorem obsEq_d {dim : ℕ} {st st' : LinUCBState} (h : obsEq dim st st')
    (hd : st.d = some dim) : st'.d = some dim := h.2.1.trans hd

/-- Observationally equal states assign every arm the same claim-side
score. -/
theorem specScore_congr {dim : ℕ} {st st' : LinUCBState}
    (h : obsEq dim st st') (ctx : List (String × Vec)) (arm_id : String) :
    specScore st' dim ctx arm_id = specScore st dim ctx arm_id := by
  unfold specScore
  rw [h.1, h.2.2.1 arm_id, h.2.2.2 arm_id]

/-- On a state of known dimensionality, the score the loop computes for an
arm whose feature vector is in the context is the claim-side score. -/
theorem stepScore_eq_specScore {dim : ℕ} {st : LinUCBState}
    (hd : st.d = some dim) {ctx : List (String × Vec)} {arm_id : String}
    {x : Vec} (hx : lookupKV arm_id ctx = some x) :
    stepScore st arm_id x = specScore st dim ctx arm_id := by
  have hobs := initArm_obsEq hd arm_id
  unfold stepScore specScore
  rw [hx]
  simp only [hd, Option.getD_some]
  rw [show (initArm st dim arm_id).alpha = st.alpha from hobs.1,
    hobs.2.2.1 arm_id, hobs.2.2.2 arm_id]

/-- The scoring loop leaves every observation of the state unchanged. -/
theorem select_loop_preserves {ctx : List (String × Vec)} {dim : ℕ} :
    ∀ {l : List String} {st : LinUCBState} {best : Option (String × ℝ)}
      {st' : LinUCBState} {res : String},
      st.d = some dim → select_loop ctx l st best = some (st', res) →
      obsEq dim st st' := by
  intro l
  induction l with
  | nil =>
    intro st best st' res hd h
    match best with
    | some p =>
      simp only [select_loop] at h
      obtain ⟨h1, -⟩ := Prod.mk.injEq .. ▸ Option.some.injEq .. ▸ h
      exact h1 ▸ obsEq_refl dim st
    | none => simp [select_loop] at h
  | cons arm rest ih =>
    intro st best st' res hd h
    rw [select_loop] at h
    cases hx : lookupKV arm ctx with
    | none => rw [hx] at h; exact absurd h (by simp)
    | some x =>
      rw [hx] at h
      have hd1 : (stepState st arm x).d = some dim := by
        simp [stepState, initArm, hd]
      have hstep : obsEq dim st (stepState st arm x) := by
        have : stepState st arm x = initArm st dim arm := by
          simp [stepState, hd]
        rw [this]
        exact initArm_obsEq hd arm
      exact obsEq_trans hstep (ih hd1 h)

/-- With full context coverage the loop succeeds and returns the running
best or a member of the candidate list. -/
theorem select_loop_total_mem {ctx : List (String × Vec)} :
    ∀ {l : List String} {st : LinUCBState} {best : Option (String × ℝ)},
      (∀ a ∈ l, (lookupKV a ctx).isSome) →
      (l ≠ [] ∨ best.isSome) →
      ∃ st' res, select_loop ctx l st best = some (st', res) ∧
        (res ∈ l ∨ ∃ s, best = some (res, s)) := by
  intro l
  induction l with
  | nil =>
    intro st best hcov hne
    match best with
    | some p => exact ⟨st, p.1, rfl, Or.inr ⟨p.2, rfl⟩⟩
    | none => simp at hne
  | cons arm rest ih =>
    intro st best hcov hne
    obtain ⟨x, hx⟩ := Option.isSome_iff_exists.mp (hcov arm (by simp))
    have hcov' : ∀ a ∈ rest, (lookupKV a ctx).isSome := by
      intro a ha
      exact hcov a (List.mem_cons_of_mem _ ha)
    have hbest : (betterOpt best (arm, stepScore st arm x)).isSome := by
      cases best <;> simp [betterOpt]
      split <;> simp
    obtain ⟨st', res, heq, hres⟩ :=
      @ih (stepState st arm x)
        (betterOpt best (arm, stepScore st arm x)) hcov' (Or.inr hbest)
    refine ⟨st', res, ?_, ?_⟩
    · rw [select_loop, hx]
      exact heq
    · rcases hres with h | ⟨s, hs⟩
      · exact Or.inl (List.mem_cons_of_mem _ h)
      · cases hb : best with
        | none =>
          rw [hb] at hs
          simp [betterOpt] at hs
          exact Or.inl (by simp [hs.1])
        | some q =>
          rw [hb] at hs
          simp only [betterOpt] at hs
          by_cases hcmp : stepScore st arm x > q.2
          · rw [if_pos hcmp] at hs
            obtain ⟨h1, -⟩ := Prod.mk.injEq .. ▸ Option.some.injEq .. ▸ hs
            exact Or.inl (by simp [← h1])
          · rw [if_neg hcmp] at hs
            refine Or.inr ⟨q.2, ?_⟩
            obtain ⟨h1, -⟩ := Prod.mk.injEq .. ▸ Option.some.injEq .. ▸ hs
            simp [← h1]
  
end LinUCB

namespace LinUCB

theorem betterOpt_eq_bestStep (q p : String × ℝ) :
    betterOpt (some q) p = some (bestStep q p) := by
  by_cases h : p.2 > q.2 <;> simp [betterOpt, bestStep, h]

theorem foldl_betterOpt_some :
    ∀ (l : List (String × ℝ)) (q : String × ℝ),
      l.foldl betterOpt (some q) = some (foldBest q l) := by
  intro l
  induction l with
  | nil => intro q; rfl
  | cons p t ih =>
    intro q
    show List.foldl betterOpt (betterOpt (some q) p) t = _
    rw [betterOpt_eq_bestStep, ih (bestStep q p)]
    rfl

/-- The scoring loop equals the pure running-best fold over the claim-side
scores of the initial state, alongside an observationally equal final
state. -/
theorem select_loop_run {ctx : List (String × Vec)} {dim : ℕ} :
    ∀ {l : List String} {st : LinUCBState} (best : Option (String × ℝ)),
      st.d = some dim →
      (∀ a ∈ l, (lookupKV a ctx).isSome) →
      ∃ st', obsEq dim st st' ∧
        select_loop ctx l st best =
          (l.foldl (fun b a => betterOpt b (a, specScore st dim ctx a)) best).map
            (fun p => (st', p.1)) := by
  intro l
  induction l with
  | nil =>
    intro st best hd hcov
    refine ⟨st, obsEq_refl dim st, ?_⟩
    cases best <;> rfl
  | cons arm rest ih =>
    intro st best hd hcov
    obtain ⟨x, hx⟩ := Option.isSome_iff_exists.mp (hcov arm (by simp))
    have hst : stepState st arm x = initArm st dim arm := by
      simp [stepState, hd]
    have hobs : obsEq dim st (stepState st arm x) := by
      rw [hst]; exact initArm_obsEq hd arm
    have hd1 : (stepState st arm x).d = some dim := by
      simp [stepState, initArm, hd]
    have hscore : stepScore st arm x = specScore st dim ctx arm :=
      stepScore_eq_specScore hd hx
    obtain ⟨st', hobs', heq⟩ :=
      @ih (stepState st arm x)
        (betterOpt best (arm, stepScore st arm x)) hd1
        (fun a ha => hcov a (List.mem_cons_of_mem _ ha))
    have hfun :
        (fun (b : Option (String × ℝ)) a =>
            betterOpt b (a, specScore (stepState st arm x) dim ctx a)) =
          (fun b a => betterOpt b (a, specScore st dim ctx a)) := by
      funext b a
      rw [specScore_congr hobs]
    rw [hfun] at heq
    refine ⟨st', obsEq_trans hobs hobs', ?_⟩
    rw [select_loop, hx]
    show select_loop ctx rest (stepState st arm x)
        (betterOpt best (arm, stepScore st arm x)) = _
    rw [heq, hscore]
    rfl

/-- `select_arm` with a context covering every candidate returns the first
candidate attaining the maximal claim-side UCB score, together with an
observationally unchanged state. -/
theorem select_arm_context_spec (st : LinUCBState) (dim : ℕ)
    (ctx : List (String × Vec)) (arm_ids : List String) (ridx : ℕ)
    (hd : st.d = some dim) (hne : arm_ids ≠ [])
    (hcov : ∀ a ∈ arm_ids, (lookupKV a ctx).isSome) :
    ∃ st' i, ∃ hi : i < arm_ids.length,
      select_arm st arm_ids (some ctx) ridx = some (st', arm_ids.get ⟨i, hi⟩) ∧
      obsEq dim st st' ∧
      (∀ j (hj : j < arm_ids.length),
        specScore st dim ctx (arm_ids.get ⟨j, hj⟩) ≤
          specScore st dim ctx (arm_ids.get ⟨i, hi⟩)) ∧
      (∀ j (hj : j < arm_ids.length), j < i →
        specScore st dim ctx (arm_ids.get ⟨j, hj⟩) <
          specScore st dim ctx (arm_ids.get ⟨i, hi⟩)) := by
  match arm_ids with
  | [] => exact absurd rfl hne
  | a0 :: rest =>
    obtain ⟨st', hobs, heq⟩ :=
      @select_loop_run ctx dim (a0 :: rest) st none hd hcov
    obtain ⟨i, hi, hfold, hmax, hstrict⟩ :=
      foldBest_map_spec (fun a => (a, specScore st dim ctx a)) a0 rest
    refine ⟨st', i, hi, ?_, hobs, ?_, ?_⟩
    · show select_loop ctx (a0 :: rest) st none = _
      rw [heq]
      have : List.foldl
          (fun b a => betterOpt b (a, specScore st dim ctx a)) none (a0 :: rest) =
          some (foldBest (a0, specScore st dim ctx a0)
            (rest.map (fun a => (a, specScore st dim ctx a)))) := by
        show List.foldl _ (betterOpt none (a0, specScore st dim ctx a0)) rest = _
        show List.foldl _ (some (a0, specScore st dim ctx a0)) rest = _
        rw [← List.foldl_map (fun a => (a, specScore st dim ctx a)) betterOpt rest]
        exact foldl_betterOpt_some _ _
      rw [this, hfold]
      rfl
    · intro j hj
      exact hmax j hj
    · intro j hj hji
      exact hstrict j hj hji

end LinUCB

/-! ## Entrywise facts about the matrix helpers -/

/-- A matrix has shape `d × d`. -/
def matShape (d : ℕ) (m : Mat) : Prop := m.length = d ∧ ∀ r ∈ m, r.length = d

theorem get?_zipWith {α β γ : Type _} (f : α → β → γ) :
    ∀ (as : List α) (bs : List β) (i : ℕ), i < as.length → i < bs.length →
      ∃ a b, as.get? i = some a ∧ bs.get? i = some b ∧
        (List.zipWith f as bs).get? i = some (f a b) := by
  intro as
  induction as with
  | nil => intro bs i h; simp at h
  | cons a t ih =>
    intro bs i ha hb
    cases bs with
    | nil => simp at hb
    | cons b s =>
      cases i with
      | zero => exact ⟨a, b, rfl, rfl, rfl⟩
      | succ i =>
        obtain ⟨a', b', h1, h2, h3⟩ := ih s i (by simpa using ha) (by simpa using hb)
        exact ⟨a', b', h1, h2, h3⟩

theorem vecEntry_vecAdd {x y : Vec} {i : ℕ} (hx : i < x.length)
    (hy : i < y.length) :
    vecEntry (vecAdd x y) i = vecEntry x i + vecEntry y i := by
  obtain ⟨a, b, h1, h2, h3⟩ := get?_zipWith (· + ·) x y i hx hy
  unfold vecAdd vecEntry
  rw [h1, h2, h3]
  rfl

theorem vecEntry_smulVec {x : Vec} {i : ℕ} (hx : i < x.length) (r : ℝ) :
    vecEntry (smulVec r x) i = r * vecEntry x i := by
  have hv := List.get?_eq_get hx
  unfold smulVec vecEntry
  rw [List.get?_map, hv]
  rfl

theorem matEntry_matAdd {d : ℕ} {m1 m2 : Mat} {i j : ℕ}
    (h1 : matShape d m1) (h2 : matShape d m2) (hi : i < d) (hj : j < d) :
    matEntry (matAdd m1 m2) i j = matEntry m1 i j + matEntry m2 i j := by
  obtain ⟨r1, r2, hr1, hr2, hrow⟩ :=
    get?_zipWith (fun r s => List.zipWith (· + ·) r s) m1 m2 i
      (h1.1 ▸ hi) (h2.1 ▸ hi)
  have hl1 : r1.length = d := h1.2 r1 (List.get?_mem hr1)
  have hl2 : r2.length = d := h2.2 r2 (List.get?_mem hr2)
  obtain ⟨a, b, ha, hb, hab⟩ :=
    get?_zipWith (· + ·) r1 r2 j (hl1 ▸ hj) (hl2 ▸ hj)
  unfold matAdd matEntry
  rw [hrow, hr1, hr2]
  show (List.get? (List.zipWith _ r1 r2) j).getD 0 =
    (List.get? r1 j).getD 0 + (List.get? r2 j).getD 0
  rw [hab, ha, hb]
  rfl

theorem matEntry_outer {x y : Vec} {i j : ℕ} (hi : i < x.length)
    (hj : j < y.length) :
    matEntry (outer x y) i j = vecEntry x i * vecEntry y j := by
  have hvx := List.get?_eq_get hi
  have hvy := List.get?_eq_get hj
  unfold outer matEntry vecEntry
  rw [List.get?_map, hvx, hvy]
  show (List.get? (List.map _ y) j).getD 0 = _
  rw [List.get?_map, hvy]
  rfl

theorem matShape_eye (d : ℕ) : matShape d (eye d) := by
  constructor
  · simp [eye]
  · intro r hr
    simp [eye] at hr
    obtain ⟨i, -, hr⟩ := hr
    simp [← hr]

theorem length_zeros (d : ℕ) : (zeros d).length = d := by simp [zeros]

theorem matShape_outer {d : ℕ} {x : Vec} (hx : x.length = d) :
    matShape d (outer x x) := by
  constructor
  · simp [outer, hx]
  · intro r hr
    simp [outer] at hr
    obtain ⟨i, -, hr⟩ := hr
    simp [← hr, hx]

namespace LinUCB

/-- `update` with context replaces the arm's stored matrix by
`A + outer x x` and vector by `b + reward * x` (with lazy defaults). -/
theorem update_matOf_self {st : LinUCBState} {dim : ℕ}
    (hd : st.d = some dim) (arm_id : String) (reward : ℝ) (x : Vec) :
    matOf (update st arm_id reward (some x)) dim arm_id =
      matAdd (matOf st dim arm_id) (outer x x) ∧
    vecOf (update st arm_id reward (some x)) dim arm_id =
      vecAdd (vecOf st dim arm_id) (smulVec reward x) := by
  have hobs := initArm_obsEq hd arm_id
  constructor
  · show (lookupKV arm_id (setKV arm_id _ _)).getD _ = _
    rw [show st.d.getD x.length = dim from by simp [hd]]
    rw [lookupKV_setKV_self]
    simp only [Option.getD_some]
    rw [hobs.2.2.1 arm_id]
  · show (lookupKV arm_id (setKV arm_id _ _)).getD _ = _
    rw [show st.d.getD x.length = dim from by simp [hd]]
    rw [lookupKV_setKV_self]
    simp only [Option.getD_some]
    rw [hobs.2.2.2 arm_id]

/-- `update` with context observably touches only the given arm. -/
theorem update_frame {st : LinUCBState} {dim : ℕ} (hd : st.d = some dim)
    (arm_id : String) (reward : ℝ) (x : Vec) {b : String} (hb : b ≠ arm_id) :
    matOf (update st arm_id reward (some x)) dim b = matOf st dim b ∧
    vecOf (update st arm_id reward (some x)) dim b = vecOf st dim b := by
  have hobs := initArm_obsEq hd arm_id
  constructor
  · show (lookupKV b (setKV arm_id _ _)).getD _ = _
    rw [show st.d.getD x.length = dim from by simp [hd]]
    rw [lookupKV_setKV_ne hb]
    exact hobs.2.2.1 b
  · show (lookupKV b (setKV arm_id _ _)).getD _ = _
    rw [show st.d.getD x.length = dim from by simp [hd]]
    rw [lookupKV_setKV_ne hb]
    exact hobs.2.2.2 b

end LinUCB

/-! ## SimulationEngine (src/bandit/simulation/engine.py)

The engine works against the abstract `BanditAlgorithm` interface.  Its
loop calls `select_arm(candidates)` and `update(selected_arm, reward)` —
both **without** a context argument, so the interface's optional context
parameters receive `None` — then accumulates clicks, impressions and the
history list.  `rewards[selected_arm]` on a missing key raises `KeyError`,
which aborts the run (`none`). -/

/-- One impression round as produced by the data loader (`user_id`,
`candidates`, `rewards`, and the per-candidate `contexts` mapping). -/
structure Impression where
  user_id : String
  candidates : List String
  rewards : List (String × ℚ)
  contexts : List (String × List ℚ)

/-- One entry of the result's `history` list. -/
structure HistEntry where
  round : ℕ
  user_id : String
  selected_arm : String
  reward : ℚ
deriving DecidableEq

/-- The `BanditAlgorithm` interface as the engine sees it, over an
explicit policy-state type `σ`:
`select_arm(arm_ids, context=None)` (returning the possibly advanced
state and the chosen arm) and `update(arm_id, reward, context=None)`. -/
structure BanditAlgorithm (σ : Type) where
  select_arm : σ → List String → Option (List (String × List ℚ)) → σ × String
  update : σ → String → ℚ → Option (List ℚ) → σ
  name : String

/-- Python `int(reward)` — truncation toward zero. -/
def pyInt (q : ℚ) : ℤ := q.num / q.den

/-- The result dict of `SimulationEngine.run`. -/
structure SimResult where
  algorithm : String
  total_impressions : ℕ
  total_clicks : ℤ
  click_through_rate : ℚ
  history : List HistEntry
deriving DecidableEq

namespace SimulationEngine

/-- The body of `run`'s `for` loop, threading the policy state and the
accumulators `total_clicks`, `total_impressions`, `history`. -/
def runLoop {σ : Type} (A : BanditAlgorithm σ) :
    σ → ℤ → ℕ → List HistEntry → List Impression →
    Option (σ × ℤ × ℕ × List HistEntry)
  | s, total_clicks, total_impressions, history, [] =>
      some (s, total_clicks, total_impressions, history)
  | s, total_clicks, total_impressions, history, impression :: rest =>
      let sel := A.select_arm s impression.candidates none
      match lookupKV sel.2 impression.rewards with
      | none => none
      | some reward =>
          runLoop A (A.update sel.1 sel.2 reward none)
            (total_clicks + pyInt reward) (total_impressions + 1)
            (history ++
              [⟨total_impressions + 1, impression.user_id, sel.2, reward⟩])
            rest

/-- `SimulationEngine.run`: the loop over all impressions, then the
result record with
`click_through_rate = total_clicks / total_impressions` when
`total_impressions > 0`, else `0.0`. -/
def run {σ : Type} (A : BanditAlgorithm σ) (s : σ)
    (impressions : List Impression) : Option SimResult :=
  (runLoop A s 0 0 [] impressions).map (fun r =>
    { algorithm := A.name,
      total_impressions := r.2.2.1,
      total_clicks := r.2.1,
      click_through_rate :=
        if r.2.2.1 > 0 then (r.2.1 : ℚ) / (r.2.2.1 : ℚ) else 0,
      history := r.2.2.2 })

/-- Invariant of the loop: the impression count advances by the number of
rounds, the history grows by one ordered record per round (indices
continuing from the entry count, originator and reward looked up from the
round), and the clicks accumulate `int(reward)` over the new records. -/
theorem runLoop_spec {σ : Type} (A : BanditAlgorithm σ) :
    ∀ (imps : List Impression) (s : σ) (c : ℤ) (n : ℕ) (h : List HistEntry)
      (s' : σ) (c' : ℤ) (n' : ℕ) (h' : List HistEntry),
      runLoop A s c n h imps = some (s', c', n', h') →
      n' = n + imps.length ∧
      ∃ hnew, h' = h ++ hnew ∧ hnew.length = imps.length ∧
        c' = c + (hnew.map (fun e => pyInt e.reward)).sum ∧
        ∀ i (hi : i < imps.length) (hi2 : i < hnew.length),
          (hnew.get ⟨i, hi2⟩).round = n + i + 1 ∧
          (hnew.get ⟨i, hi2⟩).user_id = (imps.get ⟨i, hi⟩).user_id ∧
          lookupKV (hnew.get ⟨i, hi2⟩).selected_arm
              (imps.get ⟨i, hi⟩).rewards =
            some ((hnew.get ⟨i, hi2⟩).reward) := by
  intro imps
  induction imps with
  | nil =>
    intro s c n h s' c' n' h' hrun
    simp only [runLoop, Option.some.injEq, Prod.mk.injEq] at hrun
    obtain ⟨-, hc, hn, hh⟩ := hrun
    subst hc
    subst hn
    subst hh
    refine ⟨by simp, [], by simp, by simp, by simp, ?_⟩
    intro i hi hi2
    exact absurd hi (by simp)
  | cons imp rest ih =>
    intro s c n h s' c' n' h' hrun
    rw [runLoop] at hrun
    cases hlook : lookupKV (A.select_arm s imp.candidates none).2 imp.rewards with
    | none =>
      rw [hlook] at hrun
      exact absurd hrun (by simp)
    | some reward =>
      rw [hlook] at hrun
      obtain ⟨hn, hnew, hh, hlen, hc, hidx⟩ :=
        ih (A.update (A.select_arm s imp.candidates none).1
            (A.select_arm s imp.candidates none).2 reward none)
          (c + pyInt reward) (n + 1)
          (h ++ [⟨n + 1, imp.user_id,
            (A.select_arm s imp.candidates none).2, reward⟩])
          s' c' n' h' hrun
      refine ⟨by simp only [List.length_cons]; omega,
        ⟨n + 1, imp.user_id,
          (A.select_arm s imp.candidates none).2, reward⟩ :: hnew,
        ?_, by simp [hlen], ?_, ?_⟩
      · rw [hh, List.append_assoc]
        rfl
      · rw [hc]
        simp only [List.map_cons, List.sum_cons]
        ring
      · intro i hi hi2
        match i with
        | 0 => exact ⟨by simp, rfl, hlook⟩
        | i + 1 =>
          obtain ⟨h1, h2, h3⟩ :=
            hidx i (by simpa using hi) (by simpa using hi2)
          refine ⟨?_, h2, h3⟩
          show (hnew.get ⟨i, _⟩).round = n + (i + 1) + 1
          omega

/-- Splitting the loop at a list append: the loop either dies in the
prefix or continues from the prefix's final accumulators. -/
theorem runLoop_append {σ : Type} (A : BanditAlgorithm σ) :
    ∀ (pre l : List Impression) (s : σ) (c : ℤ) (n : ℕ) (h : List HistEntry),
      runLoop A s c n h (pre ++ l) =
        match runLoop A s c n h pre with
        | none => none
        | some (s', c', n', h') => runLoop A s' c' n' h' l := by
  intro pre
  induction pre with
  | nil => intro l s c n h; rfl
  | cons imp rest ih =>
    intro l s c n h
    show runLoop A s c n h (imp :: (rest ++ l)) = _
    rw [runLoop, runLoop]
    cases hlook : lookupKV (A.select_arm s imp.candidates none).2 imp.rewards with
    | none => rfl
    | some reward => exact ih l _ _ _ _

/-- On 0/1 rewards, Python's `int(reward)` accumulation agrees with the
exact sum of rewards. -/
theorem sum_pyInt_cast :
    ∀ {h : List HistEntry}, (∀ e ∈ h, e.reward = 0 ∨ e.reward = 1) →
      (((h.map (fun e => pyInt e.reward)).sum : ℤ) : ℚ) =
        (h.map (fun e => e.reward)).sum := by
  intro h
  induction h with
  | nil => intro _; simp
  | cons e t ih =>
    intro hb
    simp only [List.map_cons, List.sum_cons, Int.cast_add]
    rw [ih (fun x hx => hb x (List.mem_cons_of_mem _ hx))]
    rcases hb e (by simp) with h0 | h1
    · rw [h0]
      norm_num [pyInt]
    · rw [h1]
      norm_num [pyInt]

end SimulationEngine

/-- C2: for every round sequence, a completed `SimulationEngine.run`
returns a record whose `total_impressions` is the number of rounds,
whose `click_through_rate` is `total_clicks / total_impressions` when
positive and `0.0` otherwise (so the empty sequence yields the all-zero
record), whose `total_clicks` is the exact sum of the observed rewards
(which are 0/1 by the round contract), and whose `history` has one
ordered record per round — index starting at 1 and incrementing by 1 —
recording the originator id, the selected arm, and the reward looked up
for that arm in the round's reward mapping. -/
theorem run_result_spec {σ : Type} (A : BanditAlgorithm σ) (s : σ)
    (imps : List Impression) (res : SimResult)
    (hrun : SimulationEngine.run A s imps = some res) :
    SimulationEngine.run A s [] = some ⟨A.name, 0, 0, 0, []⟩ ∧
    res.total_impressions = imps.length ∧
    res.click_through_rate =
      (if res.total_impressions > 0 then
        (res.total_clicks : ℚ) / (res.total_impressions : ℚ) else 0) ∧
    res.history.length = imps.length ∧
    ((∀ imp ∈ imps, ∀ p ∈ imp.rewards, p.2 = 0 ∨ p.2 = 1) →
      (res.total_clicks : ℚ) = (res.history.map (fun e => e.reward)).sum) ∧
    (∀ i (hi : i < imps.length) (hi2 : i < res.history.length),
      (res.history.get ⟨i, hi2⟩).round = i + 1 ∧
      (res.history.get ⟨i, hi2⟩).user_id = (imps.get ⟨i, hi⟩).user_id ∧
      lookupKV ((res.history.get ⟨i, hi2⟩).selected_arm)
          ((imps.get ⟨i, hi⟩).rewards) =
        some ((res.history.get ⟨i, hi2⟩).reward)) := by
  cases hloop : SimulationEngine.runLoop A s 0 0 [] imps with
  | none =>
    rw [SimulationEngine.run, hloop] at hrun
    exact absurd hrun (by simp)
  | some r =>
    obtain ⟨s', c', n', h'⟩ := r
    rw [SimulationEngine.run, hloop] at hrun
    replace hrun := Option.some.inj hrun
    subst hrun
    obtain ⟨hn, hnew, hh, hlen, hc, hidx⟩ :=
      SimulationEngine.runLoop_spec A imps s 0 0 [] s' c' n' h' hloop
    have hh' : h' = hnew := by simpa using hh
    subst hh'
    refine ⟨rfl, by simpa using hn, rfl, hlen, ?_, ?_⟩
    · intro hrc
      have hb : ∀ e ∈ h', e.reward = 0 ∨ e.reward = 1 := by
        intro e he
        obtain ⟨⟨i, hi2⟩, hget⟩ := List.mem_iff_get.mp he
        have hi : i < imps.length := by rw [← hlen]; exact hi2
        obtain ⟨-, -, h3⟩ := hidx i hi hi2
        rw [hget] at h3
        exact hrc (imps.get ⟨i, hi⟩) (List.get_mem imps i hi) _ (lookupKV_mem h3)
      show ((c' : ℤ) : ℚ) = _
      rw [hc, zero_add]
      exact SimulationEngine.sum_pyInt_cast hb
    · intro i hi hi2
      obtain ⟨h1, h2, h3⟩ := hidx i hi hi2
      refine ⟨?_, h2, h3⟩
      show (h'.get ⟨i, hi2⟩).round = i + 1
      omega

/-- A policy that always selects the first candidate and learns nothing
(the deterministic test double of the spec's end-to-end example). -/
def pickFirstAlg : BanditAlgorithm Unit :=
  { select_arm := fun s arm_ids _ => (s, arm_ids.headD ""),
    update := fun s _ _ _ => s,
    name := "PickFirst" }

/-- Round 1 of the end-to-end example: candidates A/B, A clicks. -/
def imp1 : Impression := ⟨"u1", ["A", "B"], [("A", 1), ("B", 0)], []⟩

/-- Round 2 of the end-to-end example: candidates C/D, D clicks. -/
def imp2 : Impression := ⟨"u2", ["C", "D"], [("C", 0), ("D", 1)], []⟩

/-- The record the engine produces on the two example rounds. -/
def sampleResult : SimResult :=
  ⟨"PickFirst", 2, 1, 1/2, [⟨1, "u1", "A", 1⟩, ⟨2, "u2", "C", 0⟩]⟩

theorem run_result_spec_witness :
    SimulationEngine.run pickFirstAlg () [imp1, imp2] = some sampleResult ∧
    sampleResult.total_impressions = [imp1, imp2].length ∧
    (sampleResult.total_clicks : ℚ) =
      (sampleResult.history.map (fun e => e.reward)).sum := by
  have hrun : SimulationEngine.run pickFirstAlg () [imp1, imp2] =
      some sampleResult := rfl
  have h := run_result_spec pickFirstAlg () [imp1, imp2] sampleResult hrun
  exact ⟨hrun, h.2.1, h.2.2.2.2.1 (by decide)⟩

/-- A `BanditAlgorithm` that records the context argument of every
`select_arm` and `update` call it receives. -/
def recorderAlg :
    BanditAlgorithm
      (List (Option (List (String × List ℚ))) × List (Option (List ℚ))) :=
  { select_arm := fun s arm_ids context =>
      ((s.1 ++ [context], s.2), arm_ids.headD ""),
    update := fun s _ _ context => (s.1, s.2 ++ [context]),
    name := "Recorder" }

/-- A round that carries a context vector for its only candidate. -/
def ctxImp : Impression := ⟨"u1", ["A"], [("A", 1)], [("A", [1])]⟩

/-- C3 (the code contradicts this claim): the round supplies a context
mapping covering its candidate, yet the engine's loop passes `none` as
the context of both the `select_arm` call and the `update` call — the
Python source invokes `select_arm(candidates)` and
`update(selected_arm, reward)` with no context argument at all.  The
recording policy observes exactly one `select_arm` call and one `update`
call, each with context `none`. -/
theorem engine_drops_context :
    ctxImp.contexts = [("A", [1])] ∧
    SimulationEngine.runLoop recorderAlg ([], []) 0 0 [] [ctxImp] =
      some ((([none], [none]) :
        List (Option (List (String × List ℚ))) × List (Option (List ℚ))),
        1, 1, [⟨1, "u1", "A", 1⟩]) := by
  exact ⟨rfl, rfl⟩

/-- C9: once the loop reaches a round on which the policy's selection has
no entry in the round's reward mapping — in particular any selection
outside the candidate set, the reward mapping's keys being candidates by
the round contract — the lookup `rewards[selected_arm]` raises and the
whole run aborts with an error immediately, whatever rounds remain. -/
theorem run_contract_violation_aborts {σ : Type} (A : BanditAlgorithm σ)
    (s0 : σ) (pre : List Impression) (imp : Impression)
    (rest : List Impression) (s : σ) (c : ℤ) (n : ℕ) (h : List HistEntry)
    (hpre : SimulationEngine.runLoop A s0 0 0 [] pre = some (s, c, n, h)) :
    ((∀ p ∈ imp.rewards, p.1 ∈ imp.candidates) →
      (A.select_arm s imp.candidates none).2 ∉ imp.candidates →
      SimulationEngine.run A s0 (pre ++ imp :: rest) = none) ∧
    (lookupKV (A.select_arm s imp.candidates none).2 imp.rewards = none →
      SimulationEngine.run A s0 (pre ++ imp :: rest) = none) := by
  have habort :
      lookupKV (A.select_arm s imp.candidates none).2 imp.rewards = none →
      SimulationEngine.run A s0 (pre ++ imp :: rest) = none := by
    intro hl
    rw [SimulationEngine.run,
      SimulationEngine.runLoop_append A pre (imp :: rest) s0 0 0 [], hpre]
    show (SimulationEngine.runLoop A s c n h (imp :: rest)).map _ = none
    rw [SimulationEngine.runLoop, hl]
    rfl
  refine ⟨?_, habort⟩
  intro hdom hout
  cases hl : lookupKV (A.select_arm s imp.candidates none).2 imp.rewards with
  | none => exact habort hl
  | some v => exact absurd (hdom _ (lookupKV_mem hl)) hout

/-- A broken policy returning an arm outside every candidate list. -/
def badAlg : BanditAlgorithm Unit :=
  { select_arm := fun s _ _ => (s, "Z"),
    update := fun s _ _ _ => s,
    name := "Bad" }

/-- A round whose reward mapping covers exactly its candidate set. -/
def impBad : Impression := ⟨"u", ["A"], [("A", 1)], []⟩

theorem run_contract_violation_aborts_witness :
    SimulationEngine.runLoop badAlg () 0 0 [] [] = some ((), 0, 0, []) ∧
    (∀ p ∈ impBad.rewards, p.1 ∈ impBad.candidates) ∧
    (badAlg.select_arm () impBad.candidates none).2 ∉ impBad.candidates ∧
    SimulationEngine.run badAlg () ([] ++ impBad :: []) = none := by
  have hpre : SimulationEngine.runLoop badAlg () 0 0 [] [] =
      some ((), 0, 0, []) := rfl
  have h := run_contract_violation_aborts badAlg () [] impBad [] () 0 0 [] hpre
  exact ⟨hpre, by decide, by decide, h.1 (by decide) (by decide)⟩

/-- C1: for every policy and every non-empty candidate list (for LinUCB
with context, additionally assuming the context mapping covers every
candidate), `select_arm` succeeds and returns an element of the candidate
list.  `ridx < len` is the contract of the consumed `integers(len)`
draw. -/
theorem select_arm_closure :
    (∀ (arm_ids : List String) (ridx : ℕ), ridx < arm_ids.length →
      ∃ a, RandomChoice.select_arm arm_ids ridx = some a ∧ a ∈ arm_ids) ∧
    (∀ (st : EpsilonGreedyState) (arm_ids : List String) (u : ℚ) (ridx : ℕ),
      arm_ids ≠ [] → ridx < arm_ids.length →
      ∃ st' a, EpsilonGreedy.select_arm st arm_ids u ridx = some (st', a) ∧
        a ∈ arm_ids) ∧
    (∀ (st : ThompsonSamplingState) (arm_ids : List String) (draws : ℕ → ℚ),
      arm_ids ≠ [] →
      ∃ st' a, ThompsonSampling.select_arm st arm_ids draws = some (st', a) ∧
        a ∈ arm_ids) ∧
    (∀ (st : LinUCBState) (arm_ids : List String) (ridx : ℕ),
      ridx < arm_ids.length →
      ∃ st' a, LinUCB.select_arm st arm_ids none ridx = some (st', a) ∧
        a ∈ arm_ids) ∧
    (∀ (st : LinUCBState) (arm_ids : List String) (ctx : List (String × Vec))
      (ridx : ℕ), arm_ids ≠ [] →
      (∀ a ∈ arm_ids, (lookupKV a ctx).isSome) →
      ∃ st' a, LinUCB.select_arm st arm_ids (some ctx) ridx = some (st', a) ∧
        a ∈ arm_ids) := by
  refine ⟨?_, ?_, ?_, ?_, ?_⟩
  · intro arm_ids ridx hr
    refine ⟨arm_ids.get ⟨ridx, hr⟩, ?_, List.get_mem _ _ _⟩
    unfold RandomChoice.select_arm
    rw [dif_pos hr]
  · intro st arm_ids u ridx hne hr
    by_cases hu : u < st.epsilon
    · refine ⟨st, arm_ids.get ⟨ridx, hr⟩, ?_, List.get_mem _ _ _⟩
      unfold EpsilonGreedy.select_arm
      rw [if_pos hu, dif_pos hr]
    · match arm_ids with
      | [] => exact absurd rfl hne
      | a0 :: rest =>
        obtain ⟨i, hi, hfold, -, -⟩ :=
          foldBest_map_spec (fun a => (a, EpsilonGreedy.avg_reward st a)) a0 rest
        refine ⟨st, (a0 :: rest).get ⟨i, hi⟩, ?_, List.get_mem _ _ _⟩
        unfold EpsilonGreedy.select_arm
        rw [if_neg hu, EpsilonGreedy.exploit_eq_foldBest, hfold]
        rfl
  · intro st arm_ids draws hne
    match arm_ids with
    | [] => exact absurd rfl hne
    | a0 :: rest =>
      refine ⟨st, _, rfl, ?_⟩
      rcases ThompsonSampling.sample_loop_mem draws rest 1 (a0, draws 0) with
        h | h
      · rw [h]
        exact List.mem_cons_self _ _
      · exact List.mem_cons_of_mem _ h
  · intro st arm_ids ridx hr
    refine ⟨st, arm_ids.get ⟨ridx, hr⟩, ?_, List.get_mem _ _ _⟩
    show (if h : ridx < arm_ids.length then
        some (st, arm_ids.get ⟨ridx, h⟩) else none) = _
    rw [dif_pos hr]
  · intro st arm_ids ctx ridx hne hcov
    obtain ⟨st', res, heq, hmem⟩ :=
      LinUCB.select_loop_total_mem hcov (Or.inl hne)
    refine ⟨st', res, ?_, ?_⟩
    · show LinUCB.select_loop ctx arm_ids st none = _
      exact heq
    · rcases hmem with h | ⟨s, hs⟩
      · exact h
      · exact absurd hs (by simp)

/-- A concrete one-armed LinUCB state of dimensionality 1. -/
noncomputable def linStI : LinUCBState := ⟨1, some 1, [], []⟩

theorem select_arm_closure_witness :
    (0 < (["A"] : List String).length) ∧
    (["A"] : List String) ≠ [] ∧
    (∀ a ∈ (["A"] : List String),
      (lookupKV a [("A", ([1] : Vec))]).isSome) ∧
    (∃ a, RandomChoice.select_arm ["A"] 0 = some a ∧ a ∈ ["A"]) ∧
    (∃ st' a, EpsilonGreedy.select_arm ⟨0, [], []⟩ ["A"] 0 0 = some (st', a) ∧
      a ∈ ["A"]) ∧
    (∃ st' a,
      ThompsonSampling.select_arm ⟨1, 1, [], []⟩ ["A"] (fun _ => 0) =
        some (st', a) ∧ a ∈ ["A"]) ∧
    (∃ st' a, LinUCB.select_arm linStI ["A"] none 0 = some (st', a) ∧
      a ∈ ["A"]) ∧
    (∃ st' a,
      LinUCB.select_arm linStI ["A"] (some [("A", [1])]) 0 = some (st', a) ∧
      a ∈ ["A"]) := by
  have hr : 0 < (["A"] : List String).length := by decide
  have hne : (["A"] : List String) ≠ [] := by decide
  have hcov : ∀ a ∈ (["A"] : List String),
      (lookupKV a [("A", ([1] : Vec))]).isSome := by
    intro a ha
    rcases List.mem_singleton.mp ha with rfl
    rfl
  exact ⟨hr, hne, hcov,
    select_arm_closure.1 ["A"] 0 hr,
    select_arm_closure.2.1 ⟨0, [], []⟩ ["A"] 0 0 hne hr,
    select_arm_closure.2.2.1 ⟨1, 1, [], []⟩ ["A"] (fun _ => 0) hne,
    select_arm_closure.2.2.2.1 linStI ["A"] 0 hr,
    select_arm_closure.2.2.2.2 linStI ["A"] [("A", [1])] 0 hne hcov⟩

/-- C4: `select_arm` never changes a policy's learned state.  The
epsilon-greedy and Thompson states are returned identically (the Python
methods perform no assignment; `defaultdict` reads only materialise
defaults), and LinUCB's lazy initialisations leave `alpha`, `d` and every
arm's observed matrix and vector unchanged.  The consumed draws are the
explicit oracle arguments. -/
theorem select_arm_pure :
    (∀ (st : EpsilonGreedyState) (arm_ids : List String) (u : ℚ) (ridx : ℕ)
      (st' : EpsilonGreedyState) (a : String),
      EpsilonGreedy.select_arm st arm_ids u ridx = some (st', a) → st' = st) ∧
    (∀ (st : ThompsonSamplingState) (arm_ids : List String) (draws : ℕ → ℚ)
      (st' : ThompsonSamplingState) (a : String),
      ThompsonSampling.select_arm st arm_ids draws = some (st', a) →
      st' = st) ∧
    (∀ (st : LinUCBState) (arm_ids : List String) (ridx : ℕ)
      (st' : LinUCBState) (a : String),
      LinUCB.select_arm st arm_ids none ridx = some (st', a) → st' = st) ∧
    (∀ (st : LinUCBState) (dim : ℕ) (arm_ids : List String)
      (ctx : List (String × Vec)) (ridx : ℕ) (st' : LinUCBState) (a : String),
      st.d = some dim →
      LinUCB.select_arm st arm_ids (some ctx) ridx = some (st', a) →
      st'.alpha = st.alpha ∧ st'.d = st.d ∧
      (∀ b, LinUCB.matOf st' dim b = LinUCB.matOf st dim b) ∧
      (∀ b, LinUCB.vecOf st' dim b = LinUCB.vecOf st dim b)) := by
  refine ⟨?_, ?_, ?_, ?_⟩
  · intro st arm_ids u ridx st' a h
    unfold EpsilonGreedy.select_arm at h
    by_cases hu : u < st.epsilon
    · rw [if_pos hu] at h
      by_cases hr : ridx < arm_ids.length
      · rw [dif_pos hr] at h
        exact ((Prod.mk.injEq .. ▸ Option.some.inj h).1).symm
      · rw [dif_neg hr] at h
        exact absurd h (by simp)
    · rw [if_neg hu] at h
      cases hx : EpsilonGreedy.exploit st arm_ids with
      | none =>
        rw [hx] at h
        exact absurd h (by simp)
      | some b =>
        rw [hx] at h
        exact ((Prod.mk.injEq .. ▸ Option.some.inj h).1).symm
  · intro st arm_ids draws st' a h
    match arm_ids with
    | [] => exact absurd h (by simp [ThompsonSampling.select_arm])
    | a0 :: rest =>
      exact ((Prod.mk.injEq .. ▸ Option.some.inj h).1).symm
  · intro st arm_ids ridx st' a h
    replace h : (if hh : ridx < arm_ids.length then
        some (st, arm_ids.get ⟨ridx, hh⟩) else none) = some (st', a) := h
    by_cases hr : ridx < arm_ids.length
    · rw [dif_pos hr] at h
      exact ((Prod.mk.injEq .. ▸ Option.some.inj h).1).symm
    · rw [dif_neg hr] at h
      exact absurd h (by simp)
  · intro st dim arm_ids ctx ridx st' a hd h
    exact LinUCB.select_loop_preserves hd h

/-- A one-armed LinUCB state after initialising arm A. -/
noncomputable def linStI2 : LinUCBState :=
  ⟨1, some 1, [("A", eye 1)], [("A", zeros 1)]⟩

theorem select_arm_pure_witness :
    (EpsilonGreedy.select_arm ⟨0, [], []⟩ ["A"] 0 0 =
      some (⟨0, [], []⟩, "A")) ∧
    ((⟨0, [], []⟩ : EpsilonGreedyState) = ⟨0, [], []⟩) ∧
    (ThompsonSampling.select_arm ⟨1, 1, [], []⟩ ["A"] (fun _ => 0) =
      some (⟨1, 1, [], []⟩, "A")) ∧
    (LinUCB.select_arm linStI ["A"] none 0 = some (linStI, "A")) ∧
    (linStI.d = some 1) ∧
    (LinUCB.select_arm linStI ["A"] (some [("A", [1])]) 0 =
      some (linStI2, "A")) ∧
    (linStI2.alpha = linStI.alpha ∧ linStI2.d = linStI.d ∧
      (∀ b, LinUCB.matOf linStI2 1 b = LinUCB.matOf linStI 1 b) ∧
      (∀ b, LinUCB.vecOf linStI2 1 b = LinUCB.vecOf linStI 1 b)) := by
  have h1 : EpsilonGreedy.select_arm ⟨0, [], []⟩ ["A"] 0 0 =
      some (⟨0, [], []⟩, "A") := rfl
  have h2 : ThompsonSampling.select_arm ⟨1, 1, [], []⟩ ["A"] (fun _ => 0) =
      some (⟨1, 1, [], []⟩, "A") := rfl
  have h3 : LinUCB.select_arm linStI ["A"] none 0 = some (linStI, "A") := rfl
  have hd : linStI.d = some 1 := rfl
  have h4 : LinUCB.select_arm linStI ["A"] (some [("A", [1])]) 0 =
      some (linStI2, "A") := rfl
  exact ⟨h1, select_arm_pure.1 _ _ _ _ _ _ h1, h2, h3, hd, h4,
    select_arm_pure.2.2.2 linStI 1 ["A"] [("A", [1])] 0 linStI2 "A" hd h4⟩

/-- C5: epsilon-greedy selection.  With `u < epsilon` (the `random()`
draw) it returns the uniformly drawn candidate `arm_ids[ridx]`; otherwise
it returns the first candidate attaining the strictly highest running
mean reward (`avg_reward`, i.e. total/count or 0.0 for an unpulled arm).
Consequently `epsilon = 0` never takes the exploration branch (the result
is the pure exploitation scan whatever `ridx`), `epsilon = 1` always
takes it (`u < 1` by the RNG contract), and a single-candidate round
returns that candidate in either branch. -/
theorem epsilon_greedy_select_spec (st : EpsilonGreedyState)
    (arm_ids : List String) (u : ℚ) (ridx : ℕ) :
    (u < st.epsilon → ∀ hr : ridx < arm_ids.length,
      EpsilonGreedy.select_arm st arm_ids u ridx =
        some (st, arm_ids.get ⟨ridx, hr⟩)) ∧
    (¬ u < st.epsilon → arm_ids ≠ [] →
      ∃ i, ∃ hi : i < arm_ids.length,
        EpsilonGreedy.select_arm st arm_ids u ridx =
          some (st, arm_ids.get ⟨i, hi⟩) ∧
        (∀ j (hj : j < arm_ids.length),
          EpsilonGreedy.avg_reward st (arm_ids.get ⟨j, hj⟩) ≤
            EpsilonGreedy.avg_reward st (arm_ids.get ⟨i, hi⟩)) ∧
        (∀ j (hj : j < arm_ids.length), j < i →
          EpsilonGreedy.avg_reward st (arm_ids.get ⟨j, hj⟩) <
            EpsilonGreedy.avg_reward st (arm_ids.get ⟨i, hi⟩))) ∧
    (st.epsilon = 0 → 0 ≤ u →
      EpsilonGreedy.select_arm st arm_ids u ridx =
        (EpsilonGreedy.exploit st arm_ids).map (fun a => (st, a))) ∧
    (st.epsilon = 1 → u < 1 → ∀ hr : ridx < arm_ids.length,
      EpsilonGreedy.select_arm st arm_ids u ridx =
        some (st, arm_ids.get ⟨ridx, hr⟩)) ∧
    (∀ a : String, EpsilonGreedy.select_arm st [a] u 0 = some (st, a)) := by
  refine ⟨?_, ?_, ?_, ?_, ?_⟩
  · intro hu hr
    unfold EpsilonGreedy.select_arm
    rw [if_pos hu, dif_pos hr]
  · intro hu hne
    match arm_ids with
    | [] => exact absurd rfl hne
    | a0 :: rest =>
      obtain ⟨i, hi, hfold, hmax, hstrict⟩ :=
        foldBest_map_spec (fun a => (a, EpsilonGreedy.avg_reward st a)) a0 rest
      refine ⟨i, hi, ?_, hmax, hstrict⟩
      unfold EpsilonGreedy.select_arm
      rw [if_neg hu, EpsilonGreedy.exploit_eq_foldBest, hfold]
      rfl
  · intro he hu
    unfold EpsilonGreedy.select_arm
    rw [he, if_neg (not_lt.mpr hu)]
  · intro he hu hr
    unfold EpsilonGreedy.select_arm
    rw [if_pos (he ▸ hu), dif_pos hr]
  · intro a
    by_cases hu : u < st.epsilon
    · show EpsilonGreedy.select_arm st [a] u 0 = some (st, a)
      unfold EpsilonGreedy.select_arm
      rw [if_pos hu, dif_pos (by simp)]
      rfl
    · unfold EpsilonGreedy.select_arm
      rw [if_neg hu]
      rfl

theorem epsilon_greedy_select_spec_witness :
    ((0 : ℚ) < (1 : ℚ)) ∧ (0 < (["A", "B"] : List String).length) ∧
    (¬ (0 : ℚ) < (0 : ℚ)) ∧ ((["A", "B"] : List String) ≠ []) ∧
    ((0 : ℚ) ≤ 0) ∧
    (EpsilonGreedy.select_arm ⟨1, [], []⟩ ["A", "B"] 0 0 =
      some (⟨1, [], []⟩, "A")) ∧
    (∃ i, ∃ hi : i < (["A", "B"] : List String).length,
      EpsilonGreedy.select_arm ⟨0, [], []⟩ ["A", "B"] 0 0 =
        some (⟨0, [], []⟩, (["A", "B"] : List String).get ⟨i, hi⟩) ∧
      (∀ j (hj : j < (["A", "B"] : List String).length),
        EpsilonGreedy.avg_reward ⟨0, [], []⟩
            ((["A", "B"] : List String).get ⟨j, hj⟩) ≤
          EpsilonGreedy.avg_reward ⟨0, [], []⟩
            ((["A", "B"] : List String).get ⟨i, hi⟩)) ∧
      (∀ j (hj : j < (["A", "B"] : List String).length), j < i →
        EpsilonGreedy.avg_reward ⟨0, [], []⟩
            ((["A", "B"] : List String).get ⟨j, hj⟩) <
          EpsilonGreedy.avg_reward ⟨0, [], []⟩
            ((["A", "B"] : List String).get ⟨i, hi⟩))) ∧
    (EpsilonGreedy.select_arm ⟨0, [], []⟩ ["A", "B"] 0 5 =
      (EpsilonGreedy.exploit ⟨0, [], []⟩ ["A", "B"]).map
        (fun a => ((⟨0, [], []⟩ : EpsilonGreedyState), a))) ∧
    (EpsilonGreedy.select_arm ⟨1, [], []⟩ [] 0 0 =
      some (⟨1, [], []⟩, "C") → False) ∧
    (EpsilonGreedy.select_arm ⟨1, [], []⟩ ["A"] 0 0 = some (⟨1, [], []⟩, "A")) := by
  have hu1 : (0 : ℚ) < 1 := by decide
  have hr : 0 < (["A", "B"] : List String).length := by decide
  have hu0 : ¬ (0 : ℚ) < 0 := by decide
  have hne : (["A", "B"] : List String) ≠ [] := by decide
  have hge : (0 : ℚ) ≤ 0 := by decide
  have h := epsilon_greedy_select_spec (⟨1, [], []⟩ : EpsilonGreedyState)
    ["A", "B"] 0 0
  have h0 := epsilon_greedy_select_spec (⟨0, [], []⟩ : EpsilonGreedyState)
    ["A", "B"] 0 0
  have h5 := epsilon_greedy_select_spec (⟨0, [], []⟩ : EpsilonGreedyState)
    ["A", "B"] 0 5
  refine ⟨hu1, hr, hu0, hne, hge, h.2.2.2.1 rfl hu1 hr, h0.2.1 hu0 hne,
    h5.2.2.1 rfl hge, by simp [EpsilonGreedy.select_arm], ?_⟩
  exact (epsilon_greedy_select_spec ⟨1, [], []⟩ ["A"] 0 0).2.2.2.2 "A"

/-- The fresh Thompson state with the default uniform prior (1, 1). -/
def freshTS : ThompsonSamplingState := ⟨1, 1, [], []⟩

/-- C6: `ThompsonSampling.update` adds `reward` to the arm's alpha and
`1 - reward` to its beta, leaving every other arm untouched (an unseen
arm starts at the configured prior); iterating the same update
accumulates additively and exactly; and from the prior `(1, 1)` a single
reward `1.0` gives `(2, 1)` while a single reward `0.0` gives `(1, 2)`. -/
theorem thompson_update_spec :
    (∀ (st : ThompsonSamplingState) (arm_id : String) (reward : ℚ)
      (b : String),
      ThompsonSampling.alphaOf (ThompsonSampling.update st arm_id reward) b =
        ThompsonSampling.alphaOf st b + (if b = arm_id then reward else 0) ∧
      ThompsonSampling.betaOf (ThompsonSampling.update st arm_id reward) b =
        ThompsonSampling.betaOf st b +
          (if b = arm_id then 1 - reward else 0)) ∧
    (∀ (st : ThompsonSamplingState) (arm_id : String) (reward : ℚ) (n : ℕ),
      ThompsonSampling.alphaOf
          ((fun s => ThompsonSampling.update s arm_id reward)^[n] st) arm_id =
        ThompsonSampling.alphaOf st arm_id + n * reward ∧
      ThompsonSampling.betaOf
          ((fun s => ThompsonSampling.update s arm_id reward)^[n] st) arm_id =
        ThompsonSampling.betaOf st arm_id + n * (1 - reward)) ∧
    (ThompsonSampling.alphaOf (ThompsonSampling.update freshTS "A" 1) "A" = 2 ∧
     ThompsonSampling.betaOf (ThompsonSampling.update freshTS "A" 1) "A" = 1 ∧
     ThompsonSampling.alphaOf (ThompsonSampling.update freshTS "A" 0) "A" = 1 ∧
     ThompsonSampling.betaOf (ThompsonSampling.update freshTS "A" 0) "A" = 2) := by
  have hsingle : ∀ (st : ThompsonSamplingState) (arm_id : String)
      (reward : ℚ) (b : String),
      ThompsonSampling.alphaOf (ThompsonSampling.update st arm_id reward) b =
        ThompsonSampling.alphaOf st b + (if b = arm_id then reward else 0) ∧
      ThompsonSampling.betaOf (ThompsonSampling.update st arm_id reward) b =
        ThompsonSampling.betaOf st b +
          (if b = arm_id then 1 - reward else 0) := by
    intro st arm_id reward b
    constructor
    · show (lookupKV b (setKV arm_id _ st.alpha)).getD st.prior_alpha = _
      by_cases hb : b = arm_id
      · subst hb
        rw [lookupKV_setKV_self, if_pos rfl]
        rfl
      · rw [lookupKV_setKV_ne hb, if_neg hb, add_zero]
        rfl
    · show (lookupKV b (setKV arm_id _ st.beta)).getD st.prior_beta = _
      by_cases hb : b = arm_id
      · subst hb
        rw [lookupKV_setKV_self, if_pos rfl]
        rfl
      · rw [lookupKV_setKV_ne hb, if_neg hb, add_zero]
        rfl
  refine ⟨hsingle, ?_, ?_⟩
  · intro st arm_id reward n
    induction n with
    | zero => simp
    | succ n ih =>
      rw [Function.iterate_succ_apply']
      obtain ⟨ha, hb⟩ :=
        hsingle ((fun s => ThompsonSampling.update s arm_id reward)^[n] st)
          arm_id reward arm_id
      rw [ha, hb, if_pos rfl, if_pos rfl, ih.1, ih.2]
      push_cast
      constructor <;> ring
  · refine ⟨?_, ?_, ?_, ?_⟩ <;>
      · obtain ⟨ha, hb⟩ := hsingle freshTS "A" _ "A"
        first
          | (rw [ha, if_pos rfl]; norm_num [ThompsonSampling.alphaOf, freshTS, lookupKV])
          | (rw [hb, if_pos rfl]; norm_num [ThompsonSampling.betaOf, freshTS, lookupKV])

/-- C7: LinUCB degrades gracefully without context: `select_arm` with no
context mapping returns the uniformly drawn candidate `arm_ids[ridx]`
untouched by (and not touching) any learned state, and `update` with no
context vector returns the state unchanged; neither raises. -/
theorem linucb_no_context_fallback :
    (∀ (st : LinUCBState) (arm_ids : List String) (ridx : ℕ)
      (hr : ridx < arm_ids.length),
      LinUCB.select_arm st arm_ids none ridx =
        some (st, arm_ids.get ⟨ridx, hr⟩)) ∧
    (∀ (st : LinUCBState) (arm_id : String) (reward : ℝ),
      LinUCB.update st arm_id reward none = st) := by
  constructor
  · intro st arm_ids ridx hr
    show (if h : ridx < arm_ids.length then
        some (st, arm_ids.get ⟨ridx, h⟩) else none) = _
    rw [dif_pos hr]
  · intro st arm_id reward
    rfl

theorem linucb_no_context_fallback_witness :
    (0 < (["A", "B"] : List String).length) ∧
    LinUCB.select_arm linStI ["A", "B"] none 0 = some (linStI, "A") ∧
    LinUCB.update linStI "A" 1 none = linStI := by
  have hr : 0 < (["A", "B"] : List String).length := by decide
  exact ⟨hr, linucb_no_context_fallback.1 linStI ["A", "B"] 0 hr,
    linucb_no_context_fallback.2 linStI "A" 1⟩

/-- C8: with a context mapping covering every candidate (vectors of the
state's dimensionality), `select_arm` returns the first candidate
maximising `thetaᵗx + alpha·sqrt(xᵗA⁻¹x)` with `theta = A⁻¹b`, unseen
arms reading as `(eye dim, zeros dim)`; and `update` with context `x`
adds the outer product `x·xᵗ` to the arm's `A` and `reward·x` to its
`b`, entry by entry, leaving every other arm unchanged. -/
theorem linucb_context_spec :
    (∀ (st : LinUCBState) (dim : ℕ) (ctx : List (String × Vec))
      (arm_ids : List String) (ridx : ℕ),
      st.d = some dim → arm_ids ≠ [] →
      (∀ a ∈ arm_ids, (lookupKV a ctx).isSome) →
      ∃ st' i, ∃ hi : i < arm_ids.length,
        LinUCB.select_arm st arm_ids (some ctx) ridx =
          some (st', arm_ids.get ⟨i, hi⟩) ∧
        (∀ j (hj : j < arm_ids.length),
          LinUCB.specScore st dim ctx (arm_ids.get ⟨j, hj⟩) ≤
            LinUCB.specScore st dim ctx (arm_ids.get ⟨i, hi⟩)) ∧
        (∀ j (hj : j < arm_ids.length), j < i →
          LinUCB.specScore st dim ctx (arm_ids.get ⟨j, hj⟩) <
            LinUCB.specScore st dim ctx (arm_ids.get ⟨i, hi⟩))) ∧
    (∀ (st : LinUCBState) (dim : ℕ) (arm_id : String) (reward : ℝ) (x : Vec),
      st.d = some dim → x.length = dim →
      matShape dim (LinUCB.matOf st dim arm_id) →
      (LinUCB.vecOf st dim arm_id).length = dim →
      (∀ i j, i < dim → j < dim →
        matEntry (LinUCB.matOf (LinUCB.update st arm_id reward (some x))
            dim arm_id) i j =
          matEntry (LinUCB.matOf st dim arm_id) i j +
            vecEntry x i * vecEntry x j) ∧
      (∀ i, i < dim →
        vecEntry (LinUCB.vecOf (LinUCB.update st arm_id reward (some x))
            dim arm_id) i =
          vecEntry (LinUCB.vecOf st dim arm_id) i + reward * vecEntry x i) ∧
      (∀ b, b ≠ arm_id →
        LinUCB.matOf (LinUCB.update st arm_id reward (some x)) dim b =
          LinUCB.matOf st dim b ∧
        LinUCB.vecOf (LinUCB.update st arm_id reward (some x)) dim b =
          LinUCB.vecOf st dim b)) := by
  constructor
  · intro st dim ctx arm_ids ridx hd hne hcov
    obtain ⟨st', i, hi, heq, -, hmax, hstrict⟩ :=
      LinUCB.select_arm_context_spec st dim ctx arm_ids ridx hd hne hcov
    exact ⟨st', i, hi, heq, hmax, hstrict⟩
  · intro st dim arm_id reward x hd hx hA hb
    obtain ⟨hmat, hvec⟩ := LinUCB.update_matOf_self hd arm_id reward x
    refine ⟨?_, ?_, ?_⟩
    · intro i j hi hj
      rw [hmat, matEntry_matAdd hA (matShape_outer hx) hi hj,
        matEntry_outer (by omega) (by omega)]
    · intro i hi
      rw [hvec]
      rw [vecEntry_vecAdd (by omega) (by simp [smulVec, hx, hi])]
      rw [vecEntry_smulVec (by omega) reward]
    · intro b hbne
      exact LinUCB.update_frame hd arm_id reward x hbne

theorem linucb_context_spec_witness :
    (linStI.d = some 1) ∧ ((["A"] : List String) ≠ []) ∧
    (∀ a ∈ (["A"] : List String),
      (lookupKV a [("A", ([1] : Vec))]).isSome) ∧
    (([1] : Vec).length = 1) ∧
    matShape 1 (LinUCB.matOf linStI 1 "A") ∧
    ((LinUCB.vecOf linStI 1 "A").length = 1) ∧
    (∃ st' i, ∃ hi : i < (["A"] : List String).length,
      LinUCB.select_arm linStI ["A"] (some [("A", [1])]) 0 =
        some (st', (["A"] : List String).get ⟨i, hi⟩) ∧
      (∀ j (hj : j < (["A"] : List String).length),
        LinUCB.specScore linStI 1 [("A", [1])]
            ((["A"] : List String).get ⟨j, hj⟩) ≤
          LinUCB.specScore linStI 1 [("A", [1])]
            ((["A"] : List String).get ⟨i, hi⟩)) ∧
      (∀ j (hj : j < (["A"] : List String).length), j < i →
        LinUCB.specScore linStI 1 [("A", [1])]
            ((["A"] : List String).get ⟨j, hj⟩) <
          LinUCB.specScore linStI 1 [("A", [1])]
            ((["A"] : List String).get ⟨i, hi⟩))) ∧
    (∀ i j, i < 1 → j < 1 →
      matEntry (LinUCB.matOf (LinUCB.update linStI "A" 1 (some [1])) 1 "A")
          i j =
        matEntry (LinUCB.matOf linStI 1 "A") i j +
          vecEntry [1] i * vecEntry [1] j) := by
  have hd : linStI.d = some 1 := rfl
  have hne : (["A"] : List String) ≠ [] := by decide
  have hcov : ∀ a ∈ (["A"] : List String),
      (lookupKV a [("A", ([1] : Vec))]).isSome := by
    intro a ha
    rcases List.mem_singleton.mp ha with rfl
    rfl
  have hx : ([1] : Vec).length = 1 := rfl
  have hA : matShape 1 (LinUCB.matOf linStI 1 "A") := matShape_eye 1
  have hb : (LinUCB.vecOf linStI 1 "A").length = 1 := rfl
  exact ⟨hd, hne, hcov, hx, hA, hb,
    linucb_context_spec.1 linStI 1 [("A", [1])] ["A"] 0 hd hne hcov,
    (linucb_context_spec.2 linStI 1 "A" 1 [1] hd hx hA hb).1⟩

namespace LinUCB

/-- A candidate with no entry in a present context mapping makes the
scoring loop raise (`KeyError`) instead of returning an arm. -/
theorem select_loop_missing {ctx : List (String × Vec)} {a : String}
    (hmiss : lookupKV a ctx = none) :
    ∀ (l : List String) (st : LinUCBState) (best : Option (String × ℝ)),
      a ∈ l → select_loop ctx l st best = none := by
  intro l
  induction l with
  | nil => intro st best ha; exact absurd ha (by simp)
  | cons arm rest ih =>
    intro st best ha
    by_cases harm : arm = a
    · subst harm
      rw [select_loop, hmiss]
    · cases hx : lookupKV arm ctx with
      | none => rw [select_loop, hx]
      | some x =>
        rw [select_loop, hx]
        rcases List.mem_cons.mp ha with h | h
        · exact absurd h.symm harm
        · exact ih _ _ h

end LinUCB

/-- C10: if the context mapping is present but omits at least one
candidate, `LinUCB.select_arm` fails with the missing-key error instead
of returning an arm — partial context never silently falls back to
random selection. -/
theorem linucb_partial_context_errors (st : LinUCBState)
    (arm_ids : List String) (ctx : List (String × Vec)) (ridx : ℕ)
    (a : String) (ha : a ∈ arm_ids) (hmiss : lookupKV a ctx = none) :
    LinUCB.select_arm st arm_ids (some ctx) ridx = none := by
  show LinUCB.select_loop ctx arm_ids st none = none
  exact LinUCB.select_loop_missing hmiss arm_ids st none ha

theorem linucb_partial_context_errors_witness :
    ("B" ∈ (["A", "B"] : List String)) ∧
    (lookupKV "B" [("A", ([1] : Vec))] = none) ∧
    LinUCB.select_arm linStI ["A", "B"] (some [("A", [1])]) 0 = none := by
  have ha : "B" ∈ (["A", "B"] : List String) := by decide
  have hmiss : lookupKV "B" [("A", ([1] : Vec))] = none := rfl
  exact ⟨ha, hmiss,
    linucb_partial_context_errors linStI ["A", "B"] [("A", [1])] 0 "B" ha hmiss⟩
